import Mathlib

/-!
Shallow embedding of the composify_core Rust crate (rule registry and
resolution engine) for checking the natural-language specification.

Modelling conventions:
* Python objects are opaque to the core; only their hashes matter to the
  core's logic.  An attribute item is modelled by the pair of its tag
  type's hash and its own hash (src/metadata.rs MetadataSet::new keys the
  map by item.get_type().hash() and stores the object).
* Rust's DefaultHasher is modelled by its input transcript: the list of
  values written to the hasher, compared for equality.  Hash collisions
  of the real 64-bit hasher are ignored.
* A Python qualifier object is modelled by its hash together with its
  observable behaviour, a boolean function of a MetadataSet
  (src/metadata.rs Qualifier::qualify).
* clone_ref duplicates reference-counted handles; in the pure model it is
  the identity and is not written out.
* PyResult error paths that can only arise from host-level downcast or
  attribute failures (not from the core's own logic) are dropped, making
  the corresponding functions total.
* The host-supplied method resolution order of a type (typing.mro() in
  src/registry.rs resolve_bases) is passed as an explicit list argument.
-/

namespace Composify

/-- An attribute metadata item: the hash of its tag type (the map key in
MetadataSet) and the item's own hash (what MetadataSet::new writes to the
content hasher). -/
structure AttrItem where
  tyHash : Int
  valHash : Int
  deriving DecidableEq, Repr

/-- MetadataSet (src/metadata.rs): a map from tag-type hash to the item,
plus the content hash, modelled as the hasher's input transcript. -/
structure MetadataSet where
  map : List (Int × AttrItem)
  hashT : List Int
  deriving DecidableEq, Repr

/-- HashMap::insert semantics for the attribute map: replace the value of
an existing key, otherwise add the entry. -/
def mapInsert (m : List (Int × AttrItem)) (k : Int) (v : AttrItem) : List (Int × AttrItem) :=
  match m with
  | [] => [(k, v)]
  | (k0, v0) :: rest => if k0 = k then (k, v) :: rest else (k0, v0) :: mapInsert rest k v

/-- MetadataSet::new: write each item's hash to the hasher and insert it
keyed by its tag type's hash. -/
def MetadataSet.new (items : List AttrItem) : MetadataSet :=
  { map := items.foldl (fun m it => mapInsert m it.tyHash it) []
    hashT := items.map (·.valHash) }

def MetadataSet.default : MetadataSet := { map := [], hashT := [] }

def MetadataSet.contains_key (m : MetadataSet) (k : Int) : Bool :=
  m.map.any (fun kv => kv.1 == k)

/-- MetadataSet::issubset: every tag-type key of this set is present in the
other set.  The stored values are not compared. -/
def MetadataSet.issubset (a b : MetadataSet) : Bool :=
  a.map.all (fun kv => b.contains_key kv.1)

def MetadataSet.is_empty (m : MetadataSet) : Bool := m.map.isEmpty

/-- PartialEq for MetadataSet compares only the content hashes. -/
def MetadataSet.beq (a b : MetadataSet) : Bool := a.hashT == b.hashT

/-- A qualifier (src/metadata.rs Qualifier): the Python object's hash (what
Qualifiers::__new__ writes to the hasher) and its observable behaviour when
called on a MetadataSet. -/
structure Qualifier where
  pyHash : Int
  eval : MetadataSet → Bool

/-- Qualifiers (src/metadata.rs): the ordered list of qualifiers plus the
content hash transcript. -/
structure Qualifiers where
  qualifiers : List Qualifier
  hashT : List Int

def Qualifiers.new (items : List Qualifier) : Qualifiers :=
  { qualifiers := items, hashT := items.map (·.pyHash) }

def Qualifiers.default : Qualifiers := { qualifiers := [], hashT := [] }

def Qualifiers.is_empty (q : Qualifiers) : Bool := q.qualifiers.isEmpty

/-- Qualifiers::qualify: every qualifier must return true. -/
def Qualifiers.qualify (q : Qualifiers) (attrs : MetadataSet) : Bool :=
  q.qualifiers.all (fun p => p.eval attrs)

/-- PartialEq for Qualifiers compares only the content hashes. -/
def Qualifiers.beq (a b : Qualifiers) : Bool := a.hashT == b.hashT

/-- SolveCardinality (src/solve_parameters.rs). -/
inductive SolveCardinality where
  | Exhaustive
  | Single
  | Exclusive
  deriving DecidableEq, Repr

/-- Default for SolveCardinality is Exclusive. -/
def SolveCardinality.default : SolveCardinality := .Exclusive

/-- SolveSpecificity (src/solve_parameters.rs). -/
inductive SolveSpecificity where
  | Exact
  | AllowSubclass
  | AllowSuperclass
  deriving DecidableEq, Repr

/-- Default for SolveSpecificity is AllowSubclass. -/
def SolveSpecificity.default : SolveSpecificity := .AllowSubclass

/-- SolveParameter (src/solve_parameters.rs). -/
structure SolveParameter where
  specificity : SolveSpecificity
  cardinality : SolveCardinality
  deriving DecidableEq, Repr

def SolveParameter.default : SolveParameter :=
  { specificity := SolveSpecificity.default, cardinality := SolveCardinality.default }

/-- TypeInfo (src/type_info.rs).  The type_name, type_module and inner_type
fields feed only repr strings and the host MRO call; the logic-relevant
fields are kept.  The host reflection layer is represented by the type's
hash alone. -/
structure TypeInfo where
  type_hash : Int
  attributes : MetadataSet
  qualifiers : Qualifiers
  solve_parameter : SolveParameter

/-- PartialEq and Hash for TypeInfo use type_hash, attributes and
qualifiers; specificity and cardinality are excluded. -/
def TypeInfo.beq (a b : TypeInfo) : Bool :=
  a.type_hash == b.type_hash && a.attributes.beq b.attributes && a.qualifiers.beq b.qualifiers

/-- One element of a metadata annotation sequence, as dispatched by
parse_metadata (src/type_info.rs): objects with a qualify attribute are
qualifiers, SolveCardinality and SolveSpecificity values are solve
parameter overrides, everything else is an attribute item. -/
inductive MetaItem where
  | qual (q : Qualifier)
  | card (c : SolveCardinality)
  | spec (s : SolveSpecificity)
  | attr (a : AttrItem)

/-- parse_metadata (src/type_info.rs): partition the metadata sequence into
attributes, qualifiers, and solve-parameter overrides (later overrides of
the same kind win). -/
def parse_metadata (metadata : List MetaItem) : MetadataSet × Qualifiers × SolveParameter :=
  let step :
      (List AttrItem × List Qualifier × SolveParameter) → MetaItem →
      (List AttrItem × List Qualifier × SolveParameter) :=
    fun acc it =>
      match it with
      | .qual q => (acc.1, acc.2.1 ++ [q], acc.2.2)
      | .card c => (acc.1, acc.2.1, { acc.2.2 with cardinality := c })
      | .spec s => (acc.1, acc.2.1, { acc.2.2 with specificity := s })
      | .attr a => (acc.1 ++ [a], acc.2.1, acc.2.2)
  let res := metadata.foldl step ([], [], SolveParameter.default)
  (MetadataSet.new res.1, Qualifiers.new res.2.1, res.2.2)

/-- TypeInfo::__new__ (src/type_info.rs): build a TypeInfo from a type's
hash and an optional metadata sequence; absent metadata means empty
attributes, empty qualifiers and default solve parameters. -/
def TypeInfo.new (typeHash : Int) (metadata : Option (List MetaItem)) : TypeInfo :=
  match metadata with
  | some md =>
    let p := parse_metadata md
    { type_hash := typeHash, attributes := p.1, qualifiers := p.2.1, solve_parameter := p.2.2 }
  | none =>
    { type_hash := typeHash, attributes := MetadataSet.default
      qualifiers := Qualifiers.default, solve_parameter := SolveParameter.default }

/-- Lexicographic comparison of char lists by scalar value (UTF-8 byte
order is scalar-order-preserving, so this matches Rust's String Ord). -/
def charListLe : List Char → List Char → Bool
  | [], _ => true
  | _ :: _, [] => false
  | a :: as, b :: bs =>
    if a.toNat < b.toNat then true
    else if b.toNat < a.toNat then false
    else charListLe as bs

def strLe (a b : String) : Bool := charListLe a.data b.data

/-- Stable insertion into a sorted list: the new element goes before the
first element it compares le to, hence after earlier equal elements. -/
def orderedInsertBy (le : α → α → Bool) (a : α) : List α → List α
  | [] => [a]
  | b :: l => if le a b then a :: b :: l else b :: orderedInsertBy le a l

/-- Stable insertion sort, the model of Rust's stable slice sort: stable
sorts agree on their output, so this matches Vec::sort_by and Vec::sort. -/
def insertionSortBy (le : α → α → Bool) : List α → List α
  | [] => []
  | a :: l => orderedInsertBy le a (insertionSortBy le l)

/-- Dependency (src/rules.rs). -/
structure Dependency where
  name : String
  typing : TypeInfo

/-- Dependencies::new (src/rules.rs): build from the items of the parameter
mapping and stably sort by name.  No uniqueness check is performed.  (The
PyResult error paths are host downcast failures only.) -/
def Dependencies.new (parameters : List (String × TypeInfo)) : List Dependency :=
  insertionSortBy (fun a b => strLe a.name b.name)
    (parameters.map (fun p => { name := p.1, typing := p.2 }))

/-- Rule (src/rules.rs).  The provider function is an opaque Python handle;
PartialEq compares it by pointer identity, modelled by an integer id. -/
structure Rule where
  function : Int
  canonical_name : String
  output_type : TypeInfo
  dependencies : List Dependency
  priority : Int
  is_async : Bool
  is_optional : Bool

def Dependency.beq (a b : Dependency) : Bool :=
  a.name == b.name && a.typing.beq b.typing

/-- PartialEq for Rule (src/rules.rs): all fields, output type and
dependency typings compared by TypeInfo equality. -/
def Rule.beq (a b : Rule) : Bool :=
  a.function == b.function && a.canonical_name == b.canonical_name
    && a.output_type.beq b.output_type
    && (a.dependencies.length == b.dependencies.length
        && (List.zip a.dependencies b.dependencies).all (fun p => p.1.beq p.2))
    && a.priority == b.priority && a.is_async == b.is_async && a.is_optional == b.is_optional

/-- TypeRegistry (src/registry.rs): subclass sets and superclass chains per
type hash.  The HashSet of subclasses is modelled as an
insertion-ordered duplicate-free list. -/
structure TypeRegistry where
  subclasses : List (Int × List Int)
  superclasses : List (Int × List Int)

def TypeRegistry.default : TypeRegistry := { subclasses := [], superclasses := [] }

def setInsert (s : List Int) (x : Int) : List Int :=
  if s.contains x then s else s ++ [x]

def TypeRegistry.add_subclass (reg : TypeRegistry) (superclass subclass : Int) : TypeRegistry :=
  match reg.subclasses.find? (fun kv => kv.1 == superclass) with
  | some kv =>
    { reg with subclasses :=
        reg.subclasses.map (fun e => if e.1 == superclass then (e.1, setInsert kv.2 subclass) else e) }
  | none => { reg with subclasses := reg.subclasses ++ [(superclass, setInsert [] subclass)] }

def hierInsert (m : List (Int × List Int)) (k : Int) (v : List Int) : List (Int × List Int) :=
  match m with
  | [] => [(k, v)]
  | (k0, v0) :: rest => if k0 = k then (k, v) :: rest else (k0, v0) :: hierInsert rest k v

/-- TypeRegistry::add (src/registry.rs): record the host-supplied MRO (self
first) as the superclass chain and back-link the type into each
superclass's subclass set. -/
def TypeRegistry.add (reg : TypeRegistry) (typeHash : Int) (mro : List Int) : TypeRegistry :=
  let reg := mro.foldl (fun r s => r.add_subclass s typeHash) reg
  { reg with superclasses := hierInsert reg.superclasses typeHash mro }

def TypeRegistry.get_superclasses (reg : TypeRegistry) (key : Int) : Option (List Int) :=
  (reg.superclasses.find? (fun kv => kv.1 == key)).map (·.2)

def TypeRegistry.get_subclasses (reg : TypeRegistry) (key : Int) : Option (List Int) :=
  (reg.subclasses.find? (fun kv => kv.1 == key)).map (·.2)

/-- Swap two positions of the heap's backing vector. -/
def swapAt (l : List Rule) (i j : Nat) : List Rule :=
  match l[i]?, l[j]? with
  | some a, some b => (l.set i b).set j a
  | _, _ => l

/-- BinaryHeap sift-up after a push (Rust std): starting from position pos,
swap the element with its parent while it is strictly greater (Rule's Ord
compares by priority only).  The extra fuel argument makes the recursion
structural; the parent index is always strictly smaller than the position,
so fuel at least the starting position never runs out. -/
def siftUpAux : Nat → List Rule → Nat → List Rule
  | _, l, 0 => l
  | 0, l, _ + 1 => l
  | fuel + 1, l, p + 1 =>
    let parent := p / 2
    match l[p + 1]?, l[parent]? with
    | some x, some par =>
      if par.priority < x.priority then siftUpAux fuel (swapAt l (p + 1) parent) parent else l
    | _, _ => l

def siftUp (l : List Rule) (pos : Nat) : List Rule :=
  siftUpAux pos l pos

/-- BinaryHeap::push: append at the end and sift up. -/
def heapPush (l : List Rule) (r : Rule) : List Rule :=
  siftUp (l ++ [r]) l.length

/-- RuleRegistry (src/registry.rs): per output-type-hash binary heaps of
rules (modelled by the heap's backing vector, which is also its iteration
order), plus the type registry. -/
structure RuleRegistry where
  rules : List (Int × List Rule)
  types : TypeRegistry

def RuleRegistry.default : RuleRegistry := { rules := [], types := TypeRegistry.default }

def heapMapInsertPush (m : List (Int × List Rule)) (k : Int) (r : Rule) : List (Int × List Rule) :=
  match m with
  | [] => [(k, heapPush [] r)]
  | (k0, h0) :: rest =>
    if k0 = k then (k, heapPush h0 r) :: rest else (k0, h0) :: heapMapInsertPush rest k r

/-- RuleRegistry::add: push the rule into the heap stored under its output
type's hash, creating the heap if absent. -/
def RuleRegistry.add (reg : RuleRegistry) (rule : Rule) : RuleRegistry :=
  { reg with rules := heapMapInsertPush reg.rules rule.output_type.type_hash rule }

def RuleRegistry.findHeap (reg : RuleRegistry) (key : Int) : Option (List Rule) :=
  (reg.rules.find? (fun kv => kv.1 == key)).map (·.2)

/-- RuleRegistry::inner_get (src/registry.rs): the rules stored under the
given type hash, filtered first by the attribute subset test and then, if
the request has qualifiers, by evaluating them against each candidate's
output attributes.  None when no heap exists for the key. -/
def RuleRegistry.inner_get (reg : RuleRegistry) (key : Int) (attributes : MetadataSet)
    (qualifiers : Qualifiers) : Option (List Rule) :=
  match reg.findHeap key with
  | none => none
  | some elements =>
    let rules := elements.filter (fun r => attributes.issubset r.output_type.attributes)
    let rules :=
      if qualifiers.is_empty then rules
      else rules.filter (fun r => qualifiers.qualify r.output_type.attributes)
    some rules

/-- RuleRegistry::get_super (src/registry.rs): union of inner_get over the
stored superclass chain of the request's type (self included); None when
the type is unknown or the union is empty. -/
def RuleRegistry.get_super (reg : RuleRegistry) (type_info : TypeInfo) : Option (List Rule) :=
  match reg.types.get_superclasses type_info.type_hash with
  | none => none
  | some keys =>
    let rules := keys.foldl
      (fun acc key =>
        match reg.inner_get key type_info.attributes type_info.qualifiers with
        | some superRules => acc ++ superRules
        | none => acc) []
    if rules.isEmpty then none else some rules

/-- RuleRegistry::get_sub (src/registry.rs): union of inner_get over the
stored subclass set of the request's type (self included); None when the
type is unknown or the union is empty. -/
def RuleRegistry.get_sub (reg : RuleRegistry) (type_info : TypeInfo) : Option (List Rule) :=
  match reg.types.get_subclasses type_info.type_hash with
  | none => none
  | some keys =>
    let rules := keys.foldl
      (fun acc key =>
        match reg.inner_get key type_info.attributes type_info.qualifiers with
        | some subRules => acc ++ subRules
        | none => acc) []
    if rules.isEmpty then none else some rules

/-- RuleRegistry::get_exact. -/
def RuleRegistry.get_exact (reg : RuleRegistry) (type_info : TypeInfo) : Option (List Rule) :=
  reg.inner_get type_info.type_hash type_info.attributes type_info.qualifiers

/-- RuleRegistry::get: dispatch on the request's specificity. -/
def RuleRegistry.get (reg : RuleRegistry) (type_info : TypeInfo) : Option (List Rule) :=
  match type_info.solve_parameter.specificity with
  | .Exact => reg.get_exact type_info
  | .AllowSubclass => reg.get_sub type_info
  | .AllowSuperclass => reg.get_super type_info

/-- RuleRegistry::add_rule (src/registry.rs): register the rule's output
type (with its host-supplied MRO) in the type registry, then add the rule.
No check of any kind is performed on the rule itself. -/
def RuleRegistry.add_rule (reg : RuleRegistry) (rule : Rule) (mro : List Int) : RuleRegistry :=
  let reg := { reg with types := reg.types.add rule.output_type.type_hash mro }
  reg.add rule

/-!
Solution model (src/solutions.rs).

A SolutionArgsCollection stores its args vector together with the u64
content hash computed by SolutionArgsCollection::new.  The hash is modelled
by its input transcript (ArgsDigest): hashing a SolutionArg writes the name
and the solution's hash, and Solution::hash writes the rule's content and
the nested collection's STORED hash field (Hash for SolutionArgsCollection
writes self.1), so a digest entry records the name, the rule, and the
nested stored digest.  The digest of an empty collection is the literal 0
(SolutionArgsCollection::new leaves h = 0 for empty args, matching the
derived Default).
-/

mutual
inductive ArgsDigest where
  | zero
  | ofArgs (entries : DigestEntryList)
inductive DigestEntryList where
  | nil
  | cons (hd : DigestEntry) (tl : DigestEntryList)
inductive DigestEntry where
  | mk (name : String) (rule : Rule) (sub : ArgsDigest)
end

mutual
/-- Comparison of stored content hashes (modulo hash collisions). -/
def ArgsDigest.beq : ArgsDigest → ArgsDigest → Bool
  | .zero, .zero => true
  | .ofArgs a, .ofArgs b => DigestEntryList.beq a b
  | _, _ => false
def DigestEntryList.beq : DigestEntryList → DigestEntryList → Bool
  | .nil, .nil => true
  | .cons a as, .cons b bs => DigestEntry.beq a b && DigestEntryList.beq as bs
  | _, _ => false
def DigestEntry.beq : DigestEntry → DigestEntry → Bool
  | .mk n1 r1 d1, .mk n2 r2 d2 => n1 == n2 && r1.beq r2 && ArgsDigest.beq d1 d2
end

mutual
/-- Solution (src/solutions.rs): a rule plus the resolved args. -/
inductive Solution where
  | mk (rule : Rule) (args : SolutionArgsCollection)
/-- SolutionArgsCollection: the args vector and the stored content hash. -/
inductive SolutionArgsCollection where
  | mk (args : SolutionArgList) (digest : ArgsDigest)
/-- Spine list of SolutionArgs (kept separate from List to avoid nesting
inside the mutual block). -/
inductive SolutionArgList where
  | nil
  | cons (hd : SolutionArg) (tl : SolutionArgList)
/-- SolutionArg: a dependency name bound to a Solution. -/
inductive SolutionArg where
  | mk (name : String) (solution : Solution)
end

def Solution.rule : Solution → Rule
  | .mk r _ => r

def Solution.args : Solution → SolutionArgsCollection
  | .mk _ a => a

def SolutionArgsCollection.argsList : SolutionArgsCollection → SolutionArgList
  | .mk l _ => l

def SolutionArgsCollection.digest : SolutionArgsCollection → ArgsDigest
  | .mk _ d => d

def SolutionArg.name : SolutionArg → String
  | .mk n _ => n

def SolutionArg.solution : SolutionArg → Solution
  | .mk _ s => s

def SolutionArgList.toList : SolutionArgList → List SolutionArg
  | .nil => []
  | .cons a tl => a :: tl.toList

def SolutionArgList.ofList : List SolutionArg → SolutionArgList
  | [] => .nil
  | a :: tl => .cons a (ofList tl)

def SolutionArgList.append (l : SolutionArgList) (a : SolutionArg) : SolutionArgList :=
  match l with
  | .nil => .cons a .nil
  | .cons b tl => .cons b (tl.append a)

/-- The hasher transcript of a SolutionArg list: for each arg, its name,
its solution's rule, and the solution's collection's stored digest. -/
def digestOf (args : List SolutionArg) : ArgsDigest :=
  match args with
  | [] => .zero
  | _ => .ofArgs (entriesOf args)
where
  entriesOf : List SolutionArg → DigestEntryList
    | [] => .nil
    | a :: tl => .cons (.mk a.name a.solution.rule a.solution.args.digest) (entriesOf tl)

/-- SolutionArgsCollection::new (src/solutions.rs): stably sort the args by
name and compute the content hash once (0 when empty). -/
def SolutionArgsCollection.new (args : List SolutionArg) : SolutionArgsCollection :=
  let sorted := insertionSortBy (fun a b => strLe a.name b.name) args
  .mk (SolutionArgList.ofList sorted) (digestOf sorted)

/-- Derived Default for SolutionArgsCollection: empty vector, hash 0. -/
def SolutionArgsCollection.default : SolutionArgsCollection := .mk .nil .zero

/-- The push performed by permutate_candidates (args.0.push(...)) and by
SolutionArgsCollection::add: the stored hash is NOT recomputed. -/
def SolutionArgsCollection.pushArg (c : SolutionArgsCollection) (a : SolutionArg) :
    SolutionArgsCollection :=
  .mk (c.argsList.append a) c.digest

/-- PartialEq for SolutionArgsCollection compares only the stored hashes. -/
def SolutionArgsCollection.beq (a b : SolutionArgsCollection) : Bool :=
  ArgsDigest.beq a.digest b.digest

/-- PartialEq for Solution: rule equality and args (stored-hash) equality. -/
def Solution.beq (a b : Solution) : Bool :=
  a.rule.beq b.rule && a.args.beq b.args

/-- The (name, solution) pairs of a collection's args vector, in order. -/
def SolutionArgsCollection.argPairs (c : SolutionArgsCollection) : List (String × Solution) :=
  c.argsList.toList.map (fun a => (a.name, a.solution))

/-!
Solver (src/solver.rs).

The execution stack is threaded as a read-only argument: the Rust code
pushes the step under an RAII guard and pops it on every exit path, so the
net stack seen by the caller is unchanged, and recursive calls see the
caller's stack plus the new step.  The shared memo cache and the error
vector are threaded as explicit state.  The recursion is indexed by fuel;
every step of the Rust algorithm is modelled before the fuel is consumed
except the recursive per-rule expansion, so for fuel at least the depth
bound the model agrees with the code (the depth guard in push_stack caps
genuine recursion).
-/

/-- SolvingErrorReason (src/solver.rs). -/
inductive SolvingErrorReason where
  | CyclicDependency
  | NoSolution
  | NotExclusive (solutions : List Solution)

/-- One frame of the execution stack: the dependency name and the target. -/
abbrev ExecutionStack := List (String × TypeInfo)

/-- Solver state threaded through the recursion: the shared memo cache
(HashMap from TypeInfo, with TypeInfo equality ignoring solve parameters)
and the recorded (stack snapshot, reason) errors. -/
structure SolverState where
  memo : List (TypeInfo × List Solution)
  errors : List (ExecutionStack × SolvingErrorReason)

/-- SolutionsMemo::read_memo: HashMap lookup by TypeInfo equality (the
per-call clone is the identity in the pure model). -/
def memoFind (m : List (TypeInfo × List Solution)) (t : TypeInfo) : Option (List Solution) :=
  (m.find? (fun kv => kv.1.beq t)).map (·.2)

/-- SolutionsMemo::save_memo: HashMap insert.  Prepending is observationally
the same as replace-in-place because the memo is only read through
memoFind, which takes the first matching entry. -/
def memoInsert (m : List (TypeInfo × List Solution)) (t : TypeInfo) (sols : List Solution) :
    List (TypeInfo × List Solution) :=
  (t, sols) :: m

/-- A dependency name together with the solutions found for it. -/
structure SolutionArgCandidate where
  name : String
  solutions : List Solution

/-- permutate_candidates (src/solver.rs): seed one singleton collection per
solution of the first candidate (built through SolutionArgsCollection::new),
then for each further candidate extend every collection of the previous
iteration with each of its solutions by pushing directly onto the args
vector.  An empty candidate list yields Err(NoSolution). -/
def permutate_candidates (candidates : List SolutionArgCandidate) :
    Except SolvingErrorReason (List SolutionArgsCollection) :=
  match candidates with
  | [] => .error .NoSolution
  | c :: rest =>
    let init := c.solutions.map
      (fun s => SolutionArgsCollection.new [SolutionArg.mk c.name s])
    .ok (rest.foldl
      (fun acc c2 =>
        acc.flatMap (fun args => c2.solutions.map
          (fun s => args.pushArg (SolutionArg.mk c2.name s))))
      init)

def SolverState.pushError (st : SolverState) (stack : ExecutionStack)
    (e : SolvingErrorReason) : SolverState :=
  { st with errors := st.errors ++ [(stack, e)] }

/-- The shape of the one-level-deeper solver passed to the loop helpers:
given the state, a dependency name and a target, produce the new state and
the optional solutions. -/
abbrev SubSolver := SolverState → String → TypeInfo → SolverState × Option (List Solution)

/-- The per-dependency loop inside a rule (src/solver.rs solve_for): resolve
each dependency in order through the sub-solver; on the first failure stop
and fail the rule (state changes from the failed attempt are kept). -/
def solveDeps (solveSub : SubSolver) (st : SolverState) (deps : List Dependency) :
    SolverState × Option (List SolutionArgCandidate) :=
  match deps with
  | [] => (st, some [])
  | d :: ds =>
    match (solveSub st d.name d.typing).2 with
    | none => ((solveSub st d.name d.typing).1, none)
    | some sols =>
      match (solveDeps solveSub (solveSub st d.name d.typing).1 ds).2 with
      | none => ((solveDeps solveSub (solveSub st d.name d.typing).1 ds).1, none)
      | some cands =>
        ((solveDeps solveSub (solveSub st d.name d.typing).1 ds).1,
          some ({ name := d.name, solutions := sols } :: cands))

/-- The body of the per-rule loop of solve_for (src/solver.rs): a rule
without dependencies unconditionally yields one Solution with default
(empty) args; otherwise its dependencies are resolved (abandoning only this
rule on failure) and the candidates expanded by permutate_candidates; a
permutation error is recorded with the current stack. -/
def permStep (stack2 : ExecutionStack) (st3 : SolverState) (rule : Rule)
    (candidates : List SolutionArgCandidate) : SolverState × List Solution :=
  match permutate_candidates candidates with
  | .ok colls => (st3, colls.map (fun c => Solution.mk rule c))
  | .error e => (st3.pushError stack2 e, [])

def ruleStep (solveSub : SubSolver) (stack2 : ExecutionStack) (st : SolverState)
    (rule : Rule) : SolverState × List Solution :=
  if rule.dependencies.isEmpty then
    (st, [Solution.mk rule SolutionArgsCollection.default])
  else
    match (solveDeps solveSub st rule.dependencies).2 with
    | none => ((solveDeps solveSub st rule.dependencies).1, [])
    | some candidates =>
      permStep stack2 (solveDeps solveSub st rule.dependencies).1 rule candidates

/-- The per-rule loop of solve_for: run ruleStep for each rule, threading
the state and collecting the Solutions in rule order. -/
def aggregateRules (solveSub : SubSolver) (stack2 : ExecutionStack) (st : SolverState)
    (rules : List Rule) : SolverState × List Solution :=
  match rules with
  | [] => (st, [])
  | rule :: rest =>
    let step := ruleStep solveSub stack2 st rule
    let res := aggregateRules solveSub stack2 step.1 rest
    (res.1, step.2 ++ res.2)

/-- Single cardinality keeps only the first solution, in iteration order
(solutions.into_iter().next()). -/
def keptOf : List Solution → List Solution
  | s :: _ => [s]
  | [] => []

/-- The tail of solve_for after the per-rule aggregation (src/solver.rs):
an empty aggregate records NoSolution and fails; otherwise the cardinality
policy is applied (Single keeps the first, Exclusive with more than one
records NotExclusive carrying the whole set and fails without saving), and
the surviving sequence is stored in the memo cache and returned. -/
def solveFinish (target : TypeInfo) (stack2 : ExecutionStack)
    (res : SolverState × List Solution) : SolverState × Option (List Solution) :=
  if res.2.isEmpty then
    ((res.1).pushError stack2 .NoSolution, none)
  else
    match target.solve_parameter.cardinality with
    | .Exhaustive =>
      ({ res.1 with memo := memoInsert (res.1).memo target res.2 }, some res.2)
    | .Single =>
      ({ res.1 with memo := memoInsert (res.1).memo target (keptOf res.2) },
        some (keptOf res.2))
    | .Exclusive =>
      if res.2.length > 1 then
        ((res.1).pushError stack2 (.NotExclusive res.2), none)
      else
        ({ res.1 with memo := memoInsert (res.1).memo target res.2 }, some res.2)

/-- The entry steps of _Solver::solve_for (src/solver.rs), shared by every
recursion depth: memo check (immediate cached return); depth guard (silent
bail-out when the stack already holds more than 5 frames); cycle check
(records CyclicDependency with the stack including the new step); on pass,
continue with the extended stack. -/
def solveGuards (st : SolverState) (stack : ExecutionStack) (name : String) (target : TypeInfo)
    (onPass : ExecutionStack → SolverState × Option (List Solution)) :
    SolverState × Option (List Solution) :=
  match memoFind st.memo target with
  | some solutions => (st, some solutions)
  | none =>
    if stack.length > 5 then
      (st, none)
    else if stack.any (fun f => f.2.beq target) then
      (st.pushError (stack ++ [(name, target)]) .CyclicDependency, none)
    else
      onPass (stack ++ [(name, target)])

/-- _Solver::solve_for (src/solver.rs): the guarded entry, then registry
lookup (None records NoSolution), per-rule resolution and combinatorial
expansion (aggregateRules), and the cardinality policy with memo save
(solveFinish).  The recursion is structural on the fuel, consumed per
nesting level; the fuel-0 arm performs the same entry steps and then gives
up silently, an artifact never reached when the fuel exceeds the depth
guard bound (any fuel at least 7 behaves like the unbounded code). -/
def solve_for (reg : RuleRegistry) : Nat → SolverState → ExecutionStack → String → TypeInfo →
    SolverState × Option (List Solution)
  | 0, st, stack, name, target =>
    solveGuards st stack name target (fun _ => (st, none))
  | fuel + 1, st, stack, name, target =>
    solveGuards st stack name target (fun stack2 =>
      match reg.get target with
      | none => (st.pushError stack2 .NoSolution, none)
      | some rules =>
        solveFinish target stack2
          (aggregateRules (fun st3 n t => solve_for reg fuel st3 stack2 n t) stack2 st rules))

/-- Solver::solve_for (the Python entry point): run the internal solver with
the root step name on an empty stack and fresh errors; the memo cache is
the Solver's shared one.  Returns the final memo, the recorded errors
(surfaced as SolveFailureError when the result is None, discarded
otherwise), and the result. -/
def solveTop (reg : RuleRegistry) (fuel : Nat) (memo : List (TypeInfo × List Solution))
    (target : TypeInfo) :
    (List (TypeInfo × List Solution) × List (ExecutionStack × SolvingErrorReason)) ×
      Option (List Solution) :=
  let res := solve_for reg fuel { memo := memo, errors := [] } [] "__root__" target
  ((res.1.memo, res.1.errors), res.2)

/-!
Definitions taken from the specification's words, for comparison with the
code-derived definitions above.
-/

/-- Modelled from the spec: the subset test as the specification words it,
requiring every tag-type present in the first set to be present WITH AN
EQUAL VALUE in the second set (the code's MetadataSet::issubset compares
keys only). -/
def specSubsetEqualValues (a b : MetadataSet) : Bool :=
  a.map.all (fun kv => b.map.any (fun kv2 => kv2.1 == kv.1 && kv2.2 == kv.2))

/-- Modelled from the spec: the Cartesian product across the dependency
name to solution-sequence pairs, one (name, solution) combination list per
element, combinations ordered with earlier candidates outermost. -/
def specCartesian (candidates : List SolutionArgCandidate) : List (List (String × Solution)) :=
  candidates.foldl
    (fun acc c => acc.flatMap (fun combo => c.solutions.map (fun s => combo ++ [(c.name, s)])))
    [[]]

/-- Whether an integer list is ordered highest first. -/
def descSorted : List Int → Bool
  | [] => true
  | [_] => true
  | a :: b :: t => decide (b ≤ a) && descSorted (b :: t)

/-!
Concrete fixtures used by the claim theorems, witnesses and
counterexamples.
-/

/-- A TypeInfo with no attributes and no qualifiers, with the given solve
parameters. -/
def mkTI (h : Int) (sp : SolveSpecificity) (card : SolveCardinality) : TypeInfo :=
  { type_hash := h, attributes := MetadataSet.default, qualifiers := Qualifiers.default,
    solve_parameter := { specificity := sp, cardinality := card } }

/-- A rule built the way Rule::new builds one: in particular the
dependencies go through Dependencies::new. -/
def mkRule (fid : Int) (out : TypeInfo) (deps : List (String × TypeInfo)) (prio : Int) : Rule :=
  { function := fid, canonical_name := "r", output_type := out,
    dependencies := Dependencies.new deps, priority := prio,
    is_async := false, is_optional := false }

/-- Projection of an error reason to a tag, to state concrete error lists
without comparing the carried solutions for propositional equality. -/
def reasonTag : SolvingErrorReason → Nat
  | .CyclicDependency => 0
  | .NoSolution => 1
  | .NotExclusive _ => 2

/-- C2 fixture: three dependency-free rules for one output type with
priorities 1, 5, 3, registered in that order; the request asks for the
exact type with Single cardinality. -/
def tC2 : TypeInfo := mkTI 100 .Exact .Single

def rP1 : Rule := mkRule 1 tC2 [] 1

def rP5 : Rule := mkRule 2 tC2 [] 5

def rP3 : Rule := mkRule 3 tC2 [] 3

def regC2 : RuleRegistry :=
  ((RuleRegistry.default.add_rule rP1 [100]).add_rule rP5 [100]).add_rule rP3 [100]

/-- C5 fixture: two mutually dependent rules (R1 producing T1 requires T2,
R2 producing T2 requires T1). -/
def tT1 : TypeInfo := mkTI 201 .AllowSubclass .Exclusive

def tT2 : TypeInfo := mkTI 202 .AllowSubclass .Exclusive

def rR1 : Rule := mkRule 11 tT1 [("d", tT2)] 0

def rR2 : Rule := mkRule 12 tT2 [("d", tT1)] 0

def regC5 : RuleRegistry :=
  (RuleRegistry.default.add_rule rR1 [201]).add_rule rR2 [202]

/-- C6 and C3 fixture: a rule with dependencies a (2 candidate solutions)
and b (3 candidate solutions), everything Exhaustive. -/
def tTA : TypeInfo := mkTI 301 .Exact .Exhaustive

def tTB : TypeInfo := mkTI 302 .Exact .Exhaustive

def tTR : TypeInfo := mkTI 303 .Exact .Exhaustive

def rA1 : Rule := mkRule 21 tTA [] 0

def rA2 : Rule := mkRule 22 tTA [] 0

def rB1 : Rule := mkRule 23 tTB [] 0

def rB2 : Rule := mkRule 24 tTB [] 0

def rB3 : Rule := mkRule 25 tTB [] 0

def rC6 : Rule := mkRule 26 tTR [("a", tTA), ("b", tTB)] 0

def regC6 : RuleRegistry :=
  (((((RuleRegistry.default.add_rule rA1 [301]).add_rule rA2 [301]).add_rule rB1
    [302]).add_rule rB2 [302]).add_rule rB3 [302]).add_rule rC6 [303]

/-- C1 fixture: a rule whose output type carries tag-type 7 with value
hash 2, requested with the same tag-type at value hash 1. -/
def attrVal1 : AttrItem := { tyHash := 7, valHash := 1 }

def attrVal2 : AttrItem := { tyHash := 7, valHash := 2 }

def keyAttrsC1 : MetadataSet := MetadataSet.new [attrVal1]

def outAttrsC1 : MetadataSet := MetadataSet.new [attrVal2]

def tOutC1 : TypeInfo :=
  { type_hash := 400, attributes := outAttrsC1, qualifiers := Qualifiers.default,
    solve_parameter := SolveParameter.default }

def rC1 : Rule := mkRule 31 tOutC1 [] 0

def regC1 : RuleRegistry := RuleRegistry.default.add_rule rC1 [400]

/-- Subset-law fixture: three attribute items of pairwise distinct
tag-types. -/
def attrA : AttrItem := { tyHash := 1, valHash := 11 }

def attrB : AttrItem := { tyHash := 2, valHash := 12 }

def attrC : AttrItem := { tyHash := 3, valHash := 13 }

/-- C8 fixture: Base and Sub types (Sub's MRO is [Sub, Base]), one rule
producing each; the request asks for Sub with AllowSuperclass. -/
def tBase : TypeInfo := mkTI 501 .Exact .Exhaustive

def tSub : TypeInfo := mkTI 502 .AllowSuperclass .Exhaustive

def rBase : Rule := mkRule 41 tBase [] 0

def rSub : Rule := mkRule 42 (mkTI 502 .Exact .Exhaustive) [] 0

def regC8 : RuleRegistry :=
  (RuleRegistry.default.add_rule rBase [501]).add_rule rSub [502, 501]

/-- C4 and C10 fixture: two indistinguishable dependency-free rules for one
output type; the request uses the defaults (AllowSubclass, Exclusive). -/
def tExcl : TypeInfo := TypeInfo.new 600 none

def rE1 : Rule := mkRule 51 (mkTI 600 .Exact .Exhaustive) [] 0

def rE2 : Rule := mkRule 52 (mkTI 600 .Exact .Exhaustive) [] 0

def regExcl : RuleRegistry :=
  (RuleRegistry.default.add_rule rE1 [600]).add_rule rE2 [600]

/-- C7 fixture: one dependency-free rule, Exhaustive request. -/
def tC7 : TypeInfo := mkTI 700 .Exact .Exhaustive

def rC7 : Rule := mkRule 61 tC7 [] 0

def regC7 : RuleRegistry := RuleRegistry.default.add_rule rC7 [700]

/-- C9 fixture: a rule with two dependencies sharing the name a. -/
def tDep : TypeInfo := mkTI 801 .Exact .Exhaustive

def rDup : Rule := mkRule 71 (mkTI 800 .Exact .Exhaustive) [("a", tDep), ("a", tDep)] 0

/-- Projection of a NotExclusive reason to the function ids of the carried
solutions. -/
def notExclusiveFns : SolvingErrorReason → Option (List Int)
  | .NotExclusive sols => some (sols.map (·.rule.function))
  | _ => none

/-- The six solutions the solver produces for the C6 fixture, written the
way the solver builds them: dependency-free sub-solutions with default
args, the first dependency's arg through SolutionArgsCollection::new, the
second pushed onto the vector. -/
def solA1 : Solution := .mk rA1 .default

def solA2 : Solution := .mk rA2 .default

def solB1 : Solution := .mk rB1 .default

def solB2 : Solution := .mk rB2 .default

def solB3 : Solution := .mk rB3 .default

def collFor (a b : Solution) : SolutionArgsCollection :=
  (SolutionArgsCollection.new [SolutionArg.mk "a" a]).pushArg (SolutionArg.mk "b" b)

def sA1B1 : Solution := .mk rC6 (collFor solA1 solB1)

def sA1B2 : Solution := .mk rC6 (collFor solA1 solB2)

def sA1B3 : Solution := .mk rC6 (collFor solA1 solB3)

def sA2B1 : Solution := .mk rC6 (collFor solA2 solB1)

def sA2B2 : Solution := .mk rC6 (collFor solA2 solB2)

def sA2B3 : Solution := .mk rC6 (collFor solA2 solB3)

/-- Whether x is le-below the head of the list (vacuously true when the
list is empty). -/
def leHead (le : α → α → Bool) (x : α) : List α → Bool
  | [] => true
  | y :: _ => le x y

/-- Whether consecutive elements of the list are le-related. -/
def isSortedBy (le : α → α → Bool) : List α → Bool
  | [] => true
  | _ :: [] => true
  | a :: b :: t => le a b && isSortedBy le (b :: t)

/-!
Helper lemmas.
-/

theorem isSortedBy_cons (le : α → α → Bool) (x : α) (l : List α) :
    isSortedBy le (x :: l) = (leHead le x l && isSortedBy le l) := by
  cases l with
  | nil => rfl
  | cons y t => rfl

theorem orderedInsertBy_cases (le : α → α → Bool) (a : α) (l : List α) :
    orderedInsertBy le a l = a :: l ∨
      ∃ b t, l = b :: t ∧ orderedInsertBy le a l = b :: orderedInsertBy le a t
        ∧ le a b = false := by
  cases l with
  | nil => exact .inl rfl
  | cons b t =>
    by_cases h : le a b = true
    · exact .inl (by simp [orderedInsertBy, h])
    · exact .inr ⟨b, t, rfl, by simp [orderedInsertBy, h], by simpa using h⟩

theorem length_orderedInsertBy (le : α → α → Bool) (a : α) (l : List α) :
    (orderedInsertBy le a l).length = l.length + 1 := by
  induction l with
  | nil => rfl
  | cons b t ih =>
    by_cases h : le a b = true <;> simp [orderedInsertBy, h, ih]

theorem length_insertionSortBy (le : α → α → Bool) (l : List α) :
    (insertionSortBy le l).length = l.length := by
  induction l with
  | nil => rfl
  | cons a t ih => simp [insertionSortBy, length_orderedInsertBy, ih]

theorem isSortedBy_orderedInsertBy (le : α → α → Bool)
    (htot : ∀ a b, le a b = true ∨ le b a = true) (a : α) (l : List α)
    (h : isSortedBy le l = true) : isSortedBy le (orderedInsertBy le a l) = true := by
  induction l with
  | nil => rfl
  | cons b t ih =>
    by_cases hab : le a b = true
    · have : orderedInsertBy le a (b :: t) = a :: b :: t := by simp [orderedInsertBy, hab]
      rw [this, isSortedBy_cons]
      simp [leHead, hab, h]
    · have hins : orderedInsertBy le a (b :: t) = b :: orderedInsertBy le a t := by
        simp [orderedInsertBy, hab]
      rw [hins, isSortedBy_cons]
      rw [isSortedBy_cons] at h
      have hsorted : isSortedBy le t = true := by
        cases (Bool.and_eq_true _ _).mp h with
        | intro h1 h2 => exact h2
      have hhead : leHead le b t = true := by
        cases (Bool.and_eq_true _ _).mp h with
        | intro h1 h2 => exact h1
      have hba : le b a = true := by
        cases htot a b with
        | inl h1 => exact absurd h1 hab
        | inr h2 => exact h2
      have htail := ih hsorted
      rcases orderedInsertBy_cases le a t with hc | ⟨c, t2, ht, hc, _⟩
      · rw [hc]
        rw [hc] at htail
        simp [leHead, hba, htail]
      · rw [hc]
        rw [hc] at htail
        have : leHead le b (c :: orderedInsertBy le a t2) = le b c := rfl
        rw [Bool.and_eq_true, this, htail]
        subst ht
        exact ⟨hhead, rfl⟩

theorem isSortedBy_insertionSortBy (le : α → α → Bool)
    (htot : ∀ a b, le a b = true ∨ le b a = true) (l : List α) :
    isSortedBy le (insertionSortBy le l) = true := by
  induction l with
  | nil => rfl
  | cons a t ih => exact isSortedBy_orderedInsertBy le htot a _ ih

theorem charListLe_total (a b : List Char) : charListLe a b = true ∨ charListLe b a = true := by
  induction a generalizing b with
  | nil => exact .inl rfl
  | cons x xs ih =>
    cases b with
    | nil => exact .inr rfl
    | cons y ys =>
      by_cases hxy : x.toNat < y.toNat
      · exact .inl (by simp [charListLe, hxy])
      · by_cases hyx : y.toNat < x.toNat
        · exact .inr (by simp [charListLe, hyx, Nat.lt_asymm hyx])
        · cases ih ys with
          | inl h => exact .inl (by simp [charListLe, hxy, hyx, h])
          | inr h => exact .inr (by simp [charListLe, hxy, hyx, h])

theorem strLe_total (a b : String) : strLe a b = true ∨ strLe b a = true :=
  charListLe_total a.data b.data

/-- Empty qualifier sets qualify every attribute set. -/
theorem qualify_of_is_empty {q : Qualifiers} (h : q.is_empty = true) (attrs : MetadataSet) :
    q.qualify attrs = true := by
  unfold Qualifiers.is_empty at h
  unfold Qualifiers.qualify
  cases hq : q.qualifiers with
  | nil => rfl
  | cons a t => rw [hq] at h; simp [List.isEmpty] at h

/-- Membership characterization of RuleRegistry::inner_get: a rule is
delivered exactly when it is stored under the key, the request's attributes
are a (key-wise) subset of its output attributes, and the request's
qualifiers all accept its output attributes. -/
theorem mem_inner_get {reg : RuleRegistry} {key : Int} {attrs : MetadataSet}
    {quals : Qualifiers} {rules : List Rule}
    (h : reg.inner_get key attrs quals = some rules) (r : Rule) :
    r ∈ rules ↔ r ∈ (reg.findHeap key).getD []
      ∧ attrs.issubset r.output_type.attributes = true
      ∧ quals.qualify r.output_type.attributes = true := by
  unfold RuleRegistry.inner_get at h
  cases hh : reg.findHeap key with
  | none => rw [hh] at h; exact absurd h (by simp)
  | some elements =>
    rw [hh] at h
    simp only [Option.some.injEq] at h
    subst h
    simp only [Option.getD_some]
    cases hq : quals.is_empty with
    | true =>
      simp only [if_true]
      rw [List.mem_filter]
      constructor
      · rintro ⟨h1, h2⟩
        exact ⟨h1, h2, qualify_of_is_empty hq _⟩
      · rintro ⟨h1, h2, _⟩
        exact ⟨h1, h2⟩
    | false =>
      simp only [Bool.false_eq_true, if_false]
      rw [List.mem_filter, List.mem_filter]
      constructor
      · rintro ⟨⟨h1, h2⟩, h3⟩
        exact ⟨h1, h2, h3⟩
      · rintro ⟨h1, h2, h3⟩
        exact ⟨⟨h1, h2⟩, h3⟩

/-!
Claim C1.
-/

/-- Claim C1, counterexample: the claim requires a matching candidate to
carry an EQUAL VALUE for every tag-type of the key's attributes, but
MetadataSet::issubset compares tag-type keys only.  A rule whose output
carries tag-type 7 with value hash 2 is delivered for a request carrying
tag-type 7 with value hash 1, although the spec-worded equal-value subset
test rejects it. -/
theorem claim_C1_counterexample :
    regC1.inner_get 400 keyAttrsC1 Qualifiers.default = some [rC1]
      ∧ specSubsetEqualValues keyAttrsC1 rC1.output_type.attributes = false
      ∧ keyAttrsC1.issubset rC1.output_type.attributes = true := by
  refine ⟨rfl, by decide, by decide⟩

/-- Claim C1, amended: a candidate rule is delivered for a lookup exactly
when it is stored under the looked-up identity, every tag-type present in
the key's attributes is present in the candidate's output attributes
(values are NOT compared), and every qualifier predicate of the key
evaluates to true against those output attributes; the subset-law example
holds with A, B, C of pairwise distinct tag-types: output attributes
containing A and B satisfy requests for no attributes, A, B, and A-and-B,
but not A-and-C. -/
theorem claim_C1 :
    (∀ (reg : RuleRegistry) (key : Int) (attrs : MetadataSet) (quals : Qualifiers)
      (rules : List Rule) (r : Rule), reg.inner_get key attrs quals = some rules →
      (r ∈ rules ↔ r ∈ (reg.findHeap key).getD []
        ∧ attrs.issubset r.output_type.attributes = true
        ∧ quals.qualify r.output_type.attributes = true))
    ∧ MetadataSet.default.issubset (MetadataSet.new [attrA, attrB]) = true
    ∧ (MetadataSet.new [attrA]).issubset (MetadataSet.new [attrA, attrB]) = true
    ∧ (MetadataSet.new [attrB]).issubset (MetadataSet.new [attrA, attrB]) = true
    ∧ (MetadataSet.new [attrA, attrB]).issubset (MetadataSet.new [attrA, attrB]) = true
    ∧ (MetadataSet.new [attrA, attrC]).issubset (MetadataSet.new [attrA, attrB]) = false := by
  refine ⟨fun reg key attrs quals rules r h => mem_inner_get h r,
    by decide, by decide, by decide, by decide, by decide⟩

/-- Claim C1 witness: the characterization applied to the C1 fixture
lookup. -/
theorem claim_C1_witness :
    regC1.inner_get 400 keyAttrsC1 Qualifiers.default = some [rC1]
      ∧ (rC1 ∈ [rC1] ↔ rC1 ∈ (regC1.findHeap 400).getD []
        ∧ keyAttrsC1.issubset rC1.output_type.attributes = true
        ∧ Qualifiers.default.qualify rC1.output_type.attributes = true) :=
  ⟨rfl, claim_C1.1 regC1 400 keyAttrsC1 Qualifiers.default [rC1] rC1 rfl⟩

/-!
Claim C9.
-/

/-- Claim C9, counterexample: a rule whose dependencies share the name a is
constructed by Dependencies::new without any error (both entries are kept)
and is registered by RuleRegistry::add_rule without any error; no
registration failure for duplicate dependency names exists in the code. -/
theorem claim_C9_counterexample :
    rDup.dependencies.map (·.name) = ["a", "a"]
      ∧ (RuleRegistry.default.add_rule rDup [800]).findHeap 800 = some [rDup] := by
  refine ⟨by decide, rfl⟩

/-- Claim C9, amended: registration never fails: Dependencies::new performs
no uniqueness check on dependency names; it returns all given entries
(duplicates retained) stably sorted by name, and add_rule stores the rule
unconditionally.  Uniqueness in practice comes only from the host passing
the dependencies as a mapping, whose keys are unique. -/
theorem claim_C9 :
    ∀ (parameters : List (String × TypeInfo)),
      (Dependencies.new parameters).length = parameters.length
        ∧ isSortedBy (fun a b : Dependency => strLe a.name b.name)
            (Dependencies.new parameters) = true := by
  intro parameters
  constructor
  · unfold Dependencies.new
    rw [length_insertionSortBy, List.length_map]
  · exact isSortedBy_insertionSortBy _ (fun a b : Dependency => strLe_total a.name b.name) _

/-!
Claim C5.
-/

/-- Claim C5: whenever the target already appears (by TypeKey equality) in
the execution stack — and the memo does not preempt the call and the depth
guard does not silently cut it off first — solve_for records a
CyclicDependency error carrying the stack (with the new step appended) and
returns no result; and on the two mutually dependent C5 rules the top-level
solve of T1 terminates with no result and exactly the error trail
CyclicDependency at stack root-T1/d-T2/d-T1 followed by the two NoSolution
reports of the abandoned branches. -/
theorem claim_C5 :
    (∀ (reg : RuleRegistry) (fuel : Nat) (st : SolverState) (stack : ExecutionStack)
      (name : String) (target : TypeInfo),
      memoFind st.memo target = none →
      stack.length ≤ 5 →
      stack.any (fun f => f.2.beq target) = true →
      solve_for reg fuel st stack name target =
        (st.pushError (stack ++ [(name, target)]) .CyclicDependency, none))
    ∧ (solveTop regC5 10 [] tT1).2 = none
    ∧ ((solveTop regC5 10 [] tT1).1.2.map (fun e => reasonTag e.2)) = [0, 1, 1]
    ∧ ((solveTop regC5 10 [] tT1).1.2.map (fun e => e.1.map (fun f => (f.1, f.2.type_hash)))) =
        [[("__root__", 201), ("d", 202), ("d", 201)],
         [("__root__", 201), ("d", 202)],
         [("__root__", 201)]] := by
  refine ⟨?_, rfl, by decide, by decide⟩
  intro reg fuel st stack name target hmemo hlen hcyc
  have hguards : ∀ onPass, solveGuards st stack name target onPass =
      (st.pushError (stack ++ [(name, target)]) .CyclicDependency, none) := by
    intro onPass
    unfold solveGuards
    rw [hmemo]
    have hlen2 : ¬(stack.length > 5) := by omega
    rw [if_neg hlen2, if_pos hcyc]
  cases fuel with
  | zero => exact hguards _
  | succ fuel => exact hguards _

/-- Claim C5 witness: the cyclic branch taken at a concrete stack that
already contains the target. -/
theorem claim_C5_witness :
    memoFind ([] : List (TypeInfo × List Solution)) tT1 = none
      ∧ ([("__root__", tT1)] : ExecutionStack).length ≤ 5
      ∧ ([("__root__", tT1)] : ExecutionStack).any (fun f => f.2.beq tT1) = true
      ∧ solve_for regC5 10 { memo := [], errors := [] } [("__root__", tT1)] "d" tT1 =
        (SolverState.pushError { memo := [], errors := [] }
          ([("__root__", tT1)] ++ [("d", tT1)]) .CyclicDependency, none) :=
  ⟨rfl, by decide, by decide,
    claim_C5.1 regC5 10 { memo := [], errors := [] } [("__root__", tT1)] "d" tT1 rfl
      (by decide) (by decide)⟩

/-!
Claim C10.
-/

/-- Claim C10: metadata with no SolveCardinality and no SolveSpecificity
element parses to the default solve parameters, a missing metadata sequence
also yields the defaults, the defaults are AllowSubclass with Exclusive,
and consequently the plain request for the C10 fixture type with two
indistinguishable matching rules fails with a NotExclusive error carrying
both solutions instead of returning them. -/
theorem claim_C10 :
    (∀ (items : List MetaItem),
      (∀ c, MetaItem.card c ∉ items) →
      (∀ s, MetaItem.spec s ∉ items) →
      (parse_metadata items).2.2 = SolveParameter.default)
    ∧ (TypeInfo.new 600 none).solve_parameter = SolveParameter.default
    ∧ SolveParameter.default =
        { specificity := .AllowSubclass, cardinality := .Exclusive }
    ∧ (solveTop regExcl 1 [] tExcl).2 = none
    ∧ ((solveTop regExcl 1 [] tExcl).1.2.map (fun e => notExclusiveFns e.2)) =
        [some [51, 52]] := by
  refine ⟨?_, rfl, rfl, rfl, by decide⟩
  intro items hc hs
  unfold parse_metadata
  suffices h : ∀ (acc : List AttrItem × List Qualifier × SolveParameter),
      (items.foldl (fun acc it =>
        match it with
        | .qual q => (acc.1, acc.2.1 ++ [q], acc.2.2)
        | .card c => (acc.1, acc.2.1, { acc.2.2 with cardinality := c })
        | .spec s => (acc.1, acc.2.1, { acc.2.2 with specificity := s })
        | .attr a => (acc.1 ++ [a], acc.2.1, acc.2.2)) acc).2.2 = acc.2.2 by
    exact h ([], [], SolveParameter.default)
  induction items with
  | nil => intro acc; rfl
  | cons it rest ih =>
    intro acc
    have hc2 : ∀ c, MetaItem.card c ∉ rest := fun c hmem => hc c (List.mem_cons_of_mem _ hmem)
    have hs2 : ∀ s, MetaItem.spec s ∉ rest := fun s hmem => hs s (List.mem_cons_of_mem _ hmem)
    cases it with
    | qual q => exact (ih hc2 hs2) _
    | card c => exact absurd (List.mem_cons_self (MetaItem.card c) rest) (hc c)
    | spec s => exact absurd (List.mem_cons_self (MetaItem.spec s) rest) (hs s)
    | attr a => exact (ih hc2 hs2) _

/-- Claim C10 witness: the parse of a metadata sequence holding one
attribute and one qualifier (no solve-parameter overrides) yields the
default solve parameters. -/
theorem claim_C10_witness :
    (∀ c, MetaItem.card c ∉ [MetaItem.attr attrA])
      ∧ (∀ s, MetaItem.spec s ∉ [MetaItem.attr attrA])
      ∧ (parse_metadata [MetaItem.attr attrA]).2.2 = SolveParameter.default :=
  ⟨fun c h => by simp at h, fun s h => by simp at h,
    claim_C10.1 [MetaItem.attr attrA] (fun c h => by simp at h) (fun s h => by simp at h)⟩

theorem toList_append : ∀ (l : SolutionArgList) (a : SolutionArg),
    (l.append a).toList = l.toList ++ [a]
  | .nil, _ => rfl
  | .cons b tl, a => by
    simp [SolutionArgList.append, SolutionArgList.toList, toList_append tl a]

theorem argPairs_pushArg (c : SolutionArgsCollection) (n : String) (s : Solution) :
    (c.pushArg (SolutionArg.mk n s)).argPairs = c.argPairs ++ [(n, s)] := by
  cases c with
  | mk l d =>
    simp [SolutionArgsCollection.pushArg, SolutionArgsCollection.argPairs,
      SolutionArgsCollection.argsList, toList_append, SolutionArg.name, SolutionArg.solution]

/-- The combination lists produced by the permutation fold are the
spec-side Cartesian combinations of the argPairs. -/
theorem permutate_fold_map (rest : List SolutionArgCandidate) :
    ∀ acc : List SolutionArgsCollection,
      (rest.foldl (fun acc c2 =>
        acc.flatMap (fun args => c2.solutions.map
          (fun s => args.pushArg (SolutionArg.mk c2.name s)))) acc).map
            SolutionArgsCollection.argPairs
        = rest.foldl (fun acc c =>
            acc.flatMap (fun combo => c.solutions.map (fun s => combo ++ [(c.name, s)])))
            (acc.map SolutionArgsCollection.argPairs) := by
  induction rest with
  | nil => intro acc; rfl
  | cons c rest ih =>
    intro acc
    rw [List.foldl_cons, List.foldl_cons, ih]
    congr 1
    rw [List.map_flatMap, List.flatMap_map]
    apply List.flatMap_congr
    intro args _
    rw [List.map_map]
    apply List.map_congr_left
    intro s _
    exact argPairs_pushArg args c.name s

theorem length_foldl_flatMap (cands : List SolutionArgCandidate) :
    ∀ acc : List (List (String × Solution)),
      (cands.foldl (fun acc c =>
        acc.flatMap (fun combo => c.solutions.map (fun s => combo ++ [(c.name, s)]))) acc).length
        = acc.length * (cands.map (fun c => c.solutions.length)).prod := by
  induction cands with
  | nil => intro acc; simp
  | cons c rest ih =>
    intro acc
    rw [List.foldl_cons, ih, List.length_flatMap]
    have h1 : ∀ acc2 : List (List (String × Solution)), (List.map
        (List.length ∘ fun combo => List.map (fun s => combo ++ [(c.name, s)]) c.solutions)
        acc2).sum = acc2.length * c.solutions.length := by
      intro acc2
      induction acc2 with
      | nil => simp
      | cons x xs ih2 =>
        simp only [List.map_cons, List.sum_cons, List.length_cons, Function.comp_apply,
          List.length_map, ih2]
        ring
    rw [h1, List.map_cons, List.prod_cons]
    ring

theorem specCartesian_length (cands : List SolutionArgCandidate) :
    (specCartesian cands).length = (cands.map (fun c => c.solutions.length)).prod := by
  unfold specCartesian
  rw [length_foldl_flatMap]
  simp

theorem argPairs_new_singleton (n : String) (s : Solution) :
    (SolutionArgsCollection.new [SolutionArg.mk n s]).argPairs = [(n, s)] := rfl

/-- TypeInfo equality unpacked into the compared hash components. -/
theorem TypeInfo.beq_iff {a b : TypeInfo} :
    a.beq b = true ↔
      a.type_hash = b.type_hash ∧ a.attributes.hashT = b.attributes.hashT
        ∧ a.qualifiers.hashT = b.qualifiers.hashT := by
  simp [TypeInfo.beq, MetadataSet.beq, Qualifiers.beq, and_assoc]

theorem TypeInfo.beq_refl (t : TypeInfo) : t.beq t = true :=
  TypeInfo.beq_iff.mpr ⟨rfl, rfl, rfl⟩

theorem TypeInfo.beq_symm {a b : TypeInfo} (h : a.beq b = true) : b.beq a = true := by
  rcases TypeInfo.beq_iff.mp h with ⟨h1, h2, h3⟩
  exact TypeInfo.beq_iff.mpr ⟨h1.symm, h2.symm, h3.symm⟩

theorem TypeInfo.beq_trans {a b c : TypeInfo} (h1 : a.beq b = true) (h2 : b.beq c = true) :
    a.beq c = true := by
  rcases TypeInfo.beq_iff.mp h1 with ⟨x1, x2, x3⟩
  rcases TypeInfo.beq_iff.mp h2 with ⟨y1, y2, y3⟩
  exact TypeInfo.beq_iff.mpr ⟨x1.trans y1, x2.trans y2, x3.trans y3⟩

theorem memoFind_insert (m : List (TypeInfo × List Solution)) (t : TypeInfo)
    (sols : List Solution) (k : TypeInfo) :
    memoFind (memoInsert m t sols) k =
      if t.beq k = true then some sols else memoFind m k := by
  unfold memoFind memoInsert
  by_cases h : t.beq k = true
  · simp [List.find?_cons, h]
  · simp [List.find?_cons, h]

/-- pushError leaves the memo cache untouched. -/
theorem pushError_memo (st : SolverState) (stack : ExecutionStack) (e : SolvingErrorReason) :
    (st.pushError stack e).memo = st.memo := rfl

/-- solveDeps preserves the absence of a memo entry whenever the sub-solver
does. -/
theorem solveDeps_memo_preserve (solveSub : SubSolver) (k : TypeInfo)
    (hsub : ∀ st n t, memoFind st.memo k = none → memoFind (solveSub st n t).1.memo k = none) :
    ∀ (deps : List Dependency) (st : SolverState), memoFind st.memo k = none →
      memoFind (solveDeps solveSub st deps).1.memo k = none := by
  intro deps
  induction deps with
  | nil => intro st h; exact h
  | cons d ds ih =>
    intro st h
    have h3 := hsub st d.name d.typing h
    have h4 := ih (solveSub st d.name d.typing).1 h3
    unfold solveDeps
    cases (solveSub st d.name d.typing).2 with
    | none => exact h3
    | some sols =>
      cases (solveDeps solveSub (solveSub st d.name d.typing).1 ds).2 with
      | none => exact h4
      | some cands => exact h4

/-- permStep preserves the memo. -/
theorem permStep_memo_preserve (stack2 : ExecutionStack) (st3 : SolverState) (rule : Rule)
    (candidates : List SolutionArgCandidate) (k : TypeInfo)
    (h : memoFind st3.memo k = none) :
    memoFind (permStep stack2 st3 rule candidates).1.memo k = none := by
  unfold permStep
  cases permutate_candidates candidates with
  | ok colls => exact h
  | error e => exact h

/-- ruleStep preserves the absence of a memo entry whenever the sub-solver
does. -/
theorem ruleStep_memo_preserve (solveSub : SubSolver) (stack2 : ExecutionStack) (k : TypeInfo)
    (hsub : ∀ st n t, memoFind st.memo k = none → memoFind (solveSub st n t).1.memo k = none)
    (rule : Rule) (st : SolverState) (h : memoFind st.memo k = none) :
    memoFind (ruleStep solveSub stack2 st rule).1.memo k = none := by
  have h3 := solveDeps_memo_preserve solveSub k hsub rule.dependencies st h
  unfold ruleStep
  by_cases hdep : rule.dependencies.isEmpty = true
  · rw [if_pos hdep]; exact h
  · rw [if_neg hdep]
    cases (solveDeps solveSub st rule.dependencies).2 with
    | none => exact h3
    | some candidates => exact permStep_memo_preserve stack2 _ rule candidates k h3

/-- The per-rule loop preserves the absence of a memo entry whenever the
sub-solver does. -/
theorem aggregateRules_memo_preserve (solveSub : SubSolver) (stack2 : ExecutionStack)
    (k : TypeInfo)
    (hsub : ∀ st n t, memoFind st.memo k = none → memoFind (solveSub st n t).1.memo k = none) :
    ∀ (rules : List Rule) (st : SolverState), memoFind st.memo k = none →
      memoFind (aggregateRules solveSub stack2 st rules).1.memo k = none := by
  intro rules
  induction rules with
  | nil => intro st h; exact h
  | cons rule rest ih =>
    intro st h
    exact ih (ruleStep solveSub stack2 st rule).1
      (ruleStep_memo_preserve solveSub stack2 k hsub rule st h)

/-- solveFinish preserves the absence of a memo entry for any key not equal
to the saved target. -/
theorem solveFinish_memo_preserve (target : TypeInfo) (stack2 : ExecutionStack)
    (res : SolverState × List Solution) (k : TypeInfo) (htk : target.beq k = false)
    (h : memoFind (res.1).memo k = none) :
    memoFind (solveFinish target stack2 res).1.memo k = none := by
  unfold solveFinish
  split
  · exact h
  · split
    · dsimp only
      rw [memoFind_insert, htk]
      simp only [Bool.false_eq_true, if_false]
      exact h
    · dsimp only
      rw [memoFind_insert, htk]
      simp only [Bool.false_eq_true, if_false]
      exact h
    · split
      · exact h
      · dsimp only
        rw [memoFind_insert, htk]
        simp only [Bool.false_eq_true, if_false]
        exact h

/-- solve_for never creates a memo entry for a key already on the execution
stack: the cycle check blocks any nested resolution of that key before the
save, and the memo save itself writes the current target, which passed the
cycle check. -/
theorem solve_for_memo_preserve (reg : RuleRegistry) (k : TypeInfo) :
    ∀ (fuel : Nat) (st : SolverState) (stack : ExecutionStack) (name : String)
      (target : TypeInfo),
      stack.any (fun f => f.2.beq k) = true →
      memoFind st.memo k = none →
      memoFind (solve_for reg fuel st stack name target).1.memo k = none := by
  intro fuel
  induction fuel with
  | zero =>
    intro st stack name target hany hnone
    show memoFind (solveGuards st stack name target (fun _ => (st, none))).1.memo k = none
    unfold solveGuards
    cases hm : memoFind st.memo target with
    | some s => exact hnone
    | none =>
      by_cases hlen : stack.length > 5
      · rw [if_pos hlen]; exact hnone
      · rw [if_neg hlen]
        by_cases hcyc : stack.any (fun f => f.2.beq target) = true
        · rw [if_pos hcyc]; exact hnone
        · rw [if_neg hcyc]; exact hnone
  | succ fuel ih =>
    intro st stack name target hany hnone
    show memoFind (solveGuards st stack name target (fun stack2 =>
      match reg.get target with
      | none => (st.pushError stack2 .NoSolution, none)
      | some rules =>
        solveFinish target stack2
          (aggregateRules (fun st3 n t => solve_for reg fuel st3 stack2 n t) stack2 st
            rules))).1.memo k = none
    unfold solveGuards
    cases hm : memoFind st.memo target with
    | some s => exact hnone
    | none =>
      by_cases hlen : stack.length > 5
      · rw [if_pos hlen]; exact hnone
      · rw [if_neg hlen]
        by_cases hcyc : stack.any (fun f => f.2.beq target) = true
        · rw [if_pos hcyc]; exact hnone
        · rw [if_neg hcyc]
          dsimp only
          have hany2 : (stack ++ [(name, target)]).any (fun f => f.2.beq k) = true := by
            rw [List.any_append]
            simp [hany]
          have hsub : ∀ st3 n t, memoFind st3.memo k = none →
              memoFind ((fun st3 n t =>
                solve_for reg fuel st3 (stack ++ [(name, target)]) n t) st3 n t).1.memo k
                = none := by
            intro st3 n t h3
            exact ih st3 (stack ++ [(name, target)]) n t hany2 h3
          have htk : target.beq k = false := by
            by_contra hc
            rw [Bool.not_eq_false] at hc
            rcases List.any_eq_true.mp hany with ⟨f, hf, hfk⟩
            have : f.2.beq target = true := TypeInfo.beq_trans hfk (TypeInfo.beq_symm hc)
            have : stack.any (fun f => f.2.beq target) = true :=
              List.any_eq_true.mpr ⟨f, hf, this⟩
            exact hcyc this
          cases hg : reg.get target with
          | none => exact hnone
          | some rules =>
            exact solveFinish_memo_preserve target (stack ++ [(name, target)]) _ k htk
              (aggregateRules_memo_preserve
                (fun st3 n t => solve_for reg fuel st3 (stack ++ [(name, target)]) n t)
                (stack ++ [(name, target)]) k hsub rules st hnone)

/-!
Claim C6.
-/

/-- Claim C6: permutate_candidates forms, for a non-empty candidate list,
exactly one args collection per element of the Cartesian product of the
per-dependency solution sequences (contents and count); and on the C6
fixture — dependency a with 2 candidate solutions, dependency b with 3,
Exhaustive everywhere — the solver produces exactly 6 Solutions with the
six distinct (a, b) pairings. -/
theorem claim_C6 :
    (∀ (candidates : List SolutionArgCandidate), candidates ≠ [] →
      ∃ colls, permutate_candidates candidates = .ok colls
        ∧ colls.map SolutionArgsCollection.argPairs = specCartesian candidates
        ∧ colls.length = (candidates.map (fun c => c.solutions.length)).prod)
    ∧ ((solveTop regC6 2 [] tTR).2.map (·.length)) = some 6
    ∧ ((solveTop regC6 2 [] tTR).2.map
        (·.map (fun s => s.args.argPairs.map (fun p => (p.1, p.2.rule.function))))) =
      some [[("a", 21), ("b", 23)], [("a", 21), ("b", 24)], [("a", 21), ("b", 25)],
            [("a", 22), ("b", 23)], [("a", 22), ("b", 24)], [("a", 22), ("b", 25)]] := by
  refine ⟨?_, by decide, by decide⟩
  intro candidates hne
  cases candidates with
  | nil => exact absurd rfl hne
  | cons c rest =>
    have hmap : ((rest.foldl (fun acc c2 =>
        acc.flatMap (fun args => c2.solutions.map
          (fun s => args.pushArg (SolutionArg.mk c2.name s))))
        (c.solutions.map (fun s => SolutionArgsCollection.new [SolutionArg.mk c.name s]))).map
          SolutionArgsCollection.argPairs) = specCartesian (c :: rest) := by
      rw [permutate_fold_map]
      unfold specCartesian
      rw [List.foldl_cons]
      congr 1
      rw [List.map_map]
      simp [argPairs_new_singleton]
    refine ⟨_, rfl, hmap, ?_⟩
    have hlen := congrArg List.length hmap
    rw [List.length_map, specCartesian_length] at hlen
    exact hlen

/-- Claim C6 witness: the Cartesian expansion applied to a concrete
two-candidate list with 1 and 2 solutions. -/
theorem claim_C6_witness :
    ([⟨"a", [solA1]⟩, ⟨"b", [solB1, solB2]⟩] : List SolutionArgCandidate) ≠ []
      ∧ ∃ colls,
        permutate_candidates [⟨"a", [solA1]⟩, ⟨"b", [solB1, solB2]⟩] = .ok colls
          ∧ colls.map SolutionArgsCollection.argPairs =
              specCartesian [⟨"a", [solA1]⟩, ⟨"b", [solB1, solB2]⟩]
          ∧ colls.length =
              (([⟨"a", [solA1]⟩, ⟨"b", [solB1, solB2]⟩] :
                List SolutionArgCandidate).map (fun c => c.solutions.length)).prod :=
  ⟨by simp, claim_C6.1 [⟨"a", [solA1]⟩, ⟨"b", [solB1, solB2]⟩] (by simp)⟩

/-!
Claim C3.
-/

/-- Claim C3: the code at the failing input.  The solver run on the C6
fixture produces the six expected Solutions, but the second and later args
of each collection were pushed without recomputing the stored content hash
(permutate_candidates pushes onto args.0 directly), so the first two
Solutions — same rule, same a argument, DIFFERENT b argument — compare
equal under the code's equality, contradicting both the claim's structural
equality and its sortedness-plus-content-hash invariant as stated. -/
theorem claim_C3 :
    (solveTop regC6 2 [] tTR).2 = some [sA1B1, sA1B2, sA1B3, sA2B1, sA2B2, sA2B3]
      ∧ Solution.beq sA1B1 sA1B2 = true
      ∧ sA1B1.args.argPairs.map (fun p => (p.1, p.2.rule.function)) = [("a", 21), ("b", 23)]
      ∧ sA1B2.args.argPairs.map (fun p => (p.1, p.2.rule.function)) = [("a", 21), ("b", 24)] :=
  ⟨rfl, by decide, by decide, by decide⟩


theorem solveFinish_success (target : TypeInfo) (stack2 : ExecutionStack)
    (res : SolverState × List Solution) (sols : List Solution)
    (h : (solveFinish target stack2 res).2 = some sols) :
    memoFind (solveFinish target stack2 res).1.memo target = some sols := by
  unfold solveFinish at h ⊢
  split at h
  · exact absurd h (by simp)
  · next hemp =>
    split at h
    · have h2 : some res.2 = some sols := h
      injection h2 with h3
      subst h3
      rw [if_neg hemp]
      dsimp only
      rw [memoFind_insert]
      simp [TypeInfo.beq_refl]
    · have h2 : some (keptOf res.2) = some sols := h
      injection h2 with h3
      subst h3
      rw [if_neg hemp]
      dsimp only
      rw [memoFind_insert]
      simp [TypeInfo.beq_refl]
    · split at h
      · exact absurd h (by simp)
      · next hgt =>
        have h2 : some res.2 = some sols := h
        injection h2 with h3
        subst h3
        rw [if_neg hemp]
        dsimp only
        rw [if_neg hgt]
        dsimp only
        rw [memoFind_insert]
        simp [TypeInfo.beq_refl]

theorem solveGuards_success (st : SolverState) (stack : ExecutionStack) (name : String)
    (target : TypeInfo) (onPass : ExecutionStack → SolverState × Option (List Solution))
    (sols : List Solution)
    (hpass : ∀ stack2, (onPass stack2).2 = some sols →
      memoFind (onPass stack2).1.memo target = some sols)
    (h : (solveGuards st stack name target onPass).2 = some sols) :
    memoFind (solveGuards st stack name target onPass).1.memo target = some sols := by
  unfold solveGuards at h ⊢
  split at h
  · next s heq =>
    have h2 : some s = some sols := h
    injection h2 with h3
    subst h3
    exact heq
  · next heq =>
    split at h
    · exact absurd h (by simp)
    · next hlen =>
      split at h
      · exact absurd h (by simp)
      · next hcyc =>
        rw [if_neg hlen, if_neg hcyc]
        exact hpass _ h

theorem solve_for_success_memo (reg : RuleRegistry) (fuel : Nat) (st : SolverState)
    (stack : ExecutionStack) (name : String) (target : TypeInfo) (sols : List Solution)
    (h : (solve_for reg fuel st stack name target).2 = some sols) :
    memoFind (solve_for reg fuel st stack name target).1.memo target = some sols := by
  cases fuel with
  | zero =>
    refine solveGuards_success st stack name target _ sols ?_ h
    intro stack2 h2
    exact absurd h2 (by simp)
  | succ fuel =>
    refine solveGuards_success st stack name target _ sols ?_ h
    intro stack2 h2
    cases hg : reg.get target with
    | none =>
      rw [hg] at h2
      exact absurd h2 (by simp)
    | some rules =>
      rw [hg] at h2
      exact solveFinish_success target stack2 _ sols h2


theorem solveGuards_memo_hit (st : SolverState) (stack : ExecutionStack) (name : String)
    (target : TypeInfo) (onPass : ExecutionStack → SolverState × Option (List Solution))
    (sols : List Solution) (h : memoFind st.memo target = some sols) :
    solveGuards st stack name target onPass = (st, some sols) := by
  unfold solveGuards
  rw [h]

/-- Claim C7: if a solve of a target succeeds, a second solve of the same
target against the resulting memo cache returns the same solution sequence
with the state unchanged and no errors recorded — it is answered from the
memo cache immediately, regardless of fuel, bypassing cycle tracking, rule
lookup and cardinality policy; and on the one-rule C7 fixture the second
call (with zero fuel, so nothing but the memo read could answer it)
returns the same single solution. -/
theorem claim_C7 :
    (∀ (reg : RuleRegistry) (fuel fuel2 : Nat) (memo memo2 : List (TypeInfo × List Solution))
      (target : TypeInfo) (errs : List (ExecutionStack × SolvingErrorReason))
      (sols : List Solution),
      solveTop reg fuel memo target = ((memo2, errs), some sols) →
      solveTop reg fuel2 memo2 target = ((memo2, []), some sols))
    ∧ ((solveTop regC7 1 [] tC7).2.map (·.map (·.rule.function))) = some [61]
    ∧ ((solveTop regC7 0 (solveTop regC7 1 [] tC7).1.1 tC7).2.map
        (·.map (·.rule.function))) = some [61]
    ∧ (solveTop regC7 0 (solveTop regC7 1 [] tC7).1.1 tC7).1.2.length = 0 := by
  refine ⟨?_, by decide, by decide, by decide⟩
  intro reg fuel fuel2 memo memo2 target errs sols h
  unfold solveTop at h ⊢
  have hm : (solve_for reg fuel { memo := memo, errors := [] } [] "__root__" target).1.memo
      = memo2 := congrArg (fun p => p.1.1) h
  have hr : (solve_for reg fuel { memo := memo, errors := [] } [] "__root__" target).2
      = some sols := congrArg (fun p => p.2) h
  have hfind := solve_for_success_memo reg fuel { memo := memo, errors := [] } []
    "__root__" target sols hr
  rw [hm] at hfind
  have hcall : solve_for reg fuel2 { memo := memo2, errors := [] } [] "__root__" target =
      ({ memo := memo2, errors := [] }, some sols) := by
    cases fuel2 with
    | zero => exact solveGuards_memo_hit _ _ _ _ _ sols hfind
    | succ fuel2 => exact solveGuards_memo_hit _ _ _ _ _ sols hfind
  rw [hcall]



/-- Claim C7 witness: the memoization law applied to the C7 fixture's first
run. -/
theorem claim_C7_witness :
    solveTop regC7 1 [] tC7 =
        (([(tC7, [Solution.mk rC7 .default])], []), some [Solution.mk rC7 .default])
      ∧ solveTop regC7 5 [(tC7, [Solution.mk rC7 .default])] tC7 =
        (([(tC7, [Solution.mk rC7 .default])], []), some [Solution.mk rC7 .default]) :=
  ⟨rfl, claim_C7.1 regC7 1 5 [] [(tC7, [Solution.mk rC7 .default])] tC7 []
    [Solution.mk rC7 .default] rfl⟩

/-- Claim C4: whenever the aggregate for an Exclusive-cardinality target
retains more than one Solution (with the call not answered by the memo and
not cut off by the guards), solve_for records a NotExclusive error carrying
the entire conflicting set, returns no result, and the resulting state's
memo cache has no entry for the target. -/
theorem claim_C4 :
    ∀ (reg : RuleRegistry) (fuel : Nat) (st : SolverState) (stack : ExecutionStack)
      (name : String) (target : TypeInfo) (rules : List Rule) (st1 : SolverState)
      (sols : List Solution),
      memoFind st.memo target = none →
      stack.length ≤ 5 →
      stack.any (fun f => f.2.beq target) = false →
      reg.get target = some rules →
      aggregateRules (fun st3 n t => solve_for reg fuel st3 (stack ++ [(name, target)]) n t)
        (stack ++ [(name, target)]) st rules = (st1, sols) →
      sols.length > 1 →
      target.solve_parameter.cardinality = .Exclusive →
      solve_for reg (fuel + 1) st stack name target =
        (st1.pushError (stack ++ [(name, target)]) (.NotExclusive sols), none)
        ∧ memoFind
            (st1.pushError (stack ++ [(name, target)]) (.NotExclusive sols)).memo target
            = none := by
  intro reg fuel st stack name target rules st1 sols hmemo hlen hcyc hget hagg hgt hcard
  have hne : sols.isEmpty = false := by
    cases sols with
    | nil => simp at hgt
    | cons a t => rfl
  constructor
  · show solveGuards st stack name target _ = _
    unfold solveGuards
    rw [hmemo]
    rw [if_neg (by omega : ¬stack.length > 5), if_neg (by simp [hcyc])]
    show (match reg.get target with
      | none =>
        (st.pushError (stack ++ [(name, target)]) SolvingErrorReason.NoSolution, none)
      | some rules =>
        solveFinish target (stack ++ [(name, target)])
          (aggregateRules
            (fun st3 n t => solve_for reg fuel st3 (stack ++ [(name, target)]) n t)
            (stack ++ [(name, target)]) st rules)) = _
    rw [hget]
    show solveFinish target (stack ++ [(name, target)])
        (aggregateRules
          (fun st3 n t => solve_for reg fuel st3 (stack ++ [(name, target)]) n t)
          (stack ++ [(name, target)]) st rules) = _
    rw [hagg]
    unfold solveFinish
    dsimp only
    rw [hne]
    simp only [Bool.false_eq_true, if_false]
    rw [hcard]
    rw [if_pos hgt]
  · show memoFind st1.memo target = none
    have hany2 : (stack ++ [(name, target)]).any (fun f => f.2.beq target) = true := by
      rw [List.any_append]
      simp [TypeInfo.beq_refl]
    have hsub : ∀ st3 n t, memoFind st3.memo target = none →
        memoFind ((fun st3 n t =>
          solve_for reg fuel st3 (stack ++ [(name, target)]) n t) st3 n t).1.memo target
          = none := by
      intro st3 n t h3
      exact solve_for_memo_preserve reg target fuel st3 (stack ++ [(name, target)]) n t
        hany2 h3
    have := aggregateRules_memo_preserve
      (fun st3 n t => solve_for reg fuel st3 (stack ++ [(name, target)]) n t)
      (stack ++ [(name, target)]) target hsub rules st hmemo
    rw [hagg] at this
    exact this



/-- Claim C4 witness: the Exclusive failure applied to the C4 fixture with
its two indistinguishable dependency-free rules. -/
theorem claim_C4_witness :
    regExcl.get tExcl = some [rE1, rE2]
      ∧ (solve_for regExcl 1 { memo := [], errors := [] } [] "__root__" tExcl =
          (SolverState.pushError { memo := [], errors := [] } [("__root__", tExcl)]
            (.NotExclusive [Solution.mk rE1 .default, Solution.mk rE2 .default]), none)
        ∧ memoFind (SolverState.pushError { memo := [], errors := [] } [("__root__", tExcl)]
            (.NotExclusive [Solution.mk rE1 .default, Solution.mk rE2 .default])).memo tExcl
            = none) :=
  ⟨rfl, claim_C4 regExcl 0 { memo := [], errors := [] } [] "__root__" tExcl [rE1, rE2]
    { memo := [], errors := [] } [Solution.mk rE1 .default, Solution.mk rE2 .default]
    rfl (by decide) (by decide) rfl rfl (by decide) rfl⟩



theorem mem_foldl_union (reg : RuleRegistry) (attrs : MetadataSet) (quals : Qualifiers) :
    ∀ (keys : List Int) (acc : List Rule) (r : Rule),
      (r ∈ keys.foldl (fun acc key =>
        match reg.inner_get key attrs quals with
        | some superRules => acc ++ superRules
        | none => acc) acc
      ↔ r ∈ acc ∨ ∃ key ∈ keys, ∃ rs, reg.inner_get key attrs quals = some rs ∧ r ∈ rs) := by
  intro keys
  induction keys with
  | nil => simp
  | cons key rest ih =>
    intro acc r
    rw [List.foldl_cons]
    cases hk : reg.inner_get key attrs quals with
    | none =>
      rw [ih]
      constructor
      · rintro (h | ⟨k2, hk2, rs, hrs, hr⟩)
        · exact .inl h
        · exact .inr ⟨k2, List.mem_cons_of_mem _ hk2, rs, hrs, hr⟩
      · rintro (h | ⟨k2, hk2, rs, hrs, hr⟩)
        · exact .inl h
        · rcases List.mem_cons.mp hk2 with h2 | h2
          · subst h2
            rw [hk] at hrs
            exact absurd hrs (by simp)
          · exact .inr ⟨k2, h2, rs, hrs, hr⟩
    | some rs0 =>
      rw [ih]
      constructor
      · rintro (h | ⟨k2, hk2, rs, hrs, hr⟩)
        · rcases List.mem_append.mp h with h2 | h2
          · exact .inl h2
          · exact .inr ⟨key, List.mem_cons_self _ _, rs0, hk, h2⟩
        · exact .inr ⟨k2, List.mem_cons_of_mem _ hk2, rs, hrs, hr⟩
      · rintro (h | ⟨k2, hk2, rs, hrs, hr⟩)
        · exact .inl (List.mem_append.mpr (.inl h))
        · rcases List.mem_cons.mp hk2 with h2 | h2
          · subst h2
            rw [hk] at hrs
            injection hrs with h3
            subst h3
            exact .inl (List.mem_append.mpr (.inr hr))
          · exact .inr ⟨k2, h2, rs, hrs, hr⟩

/-- Claim C8: for a request with AllowSuperclass specificity, a rule is
delivered exactly when some identity in the stored superclass chain of the
request's type (self included) delivers it through the attribute/qualifier
filtered per-identity lookup — the union across the key's identity and its
known ancestors; in particular the C8 fixture request for Sub delivers the
rule registered under Base. -/
theorem claim_C8 :
    (∀ (reg : RuleRegistry) (ti : TypeInfo) (rules : List Rule) (r : Rule),
      ti.solve_parameter.specificity = .AllowSuperclass →
      reg.get ti = some rules →
      (r ∈ rules ↔ ∃ keys, reg.types.get_superclasses ti.type_hash = some keys
        ∧ ∃ key ∈ keys, ∃ rs,
          reg.inner_get key ti.attributes ti.qualifiers = some rs ∧ r ∈ rs))
    ∧ regC8.types.get_superclasses 502 = some [502, 501]
    ∧ regC8.get tSub = some [rSub, rBase]
    ∧ rBase ∈ [rSub, rBase] := by
  refine ⟨?_, by decide, rfl, List.mem_cons_of_mem _ (List.mem_cons_self _ _)⟩
  intro reg ti rules r hspec hget
  unfold RuleRegistry.get at hget
  rw [hspec] at hget
  have hget2 : reg.get_super ti = some rules := hget
  unfold RuleRegistry.get_super at hget2
  cases hsup : reg.types.get_superclasses ti.type_hash with
  | none =>
    rw [hsup] at hget2
    exact absurd hget2 (by simp)
  | some keys =>
    rw [hsup] at hget2
    have hget3 : (if (keys.foldl (fun acc key =>
          match reg.inner_get key ti.attributes ti.qualifiers with
          | some superRules => acc ++ superRules
          | none => acc) []).isEmpty = true then none
        else some (keys.foldl (fun acc key =>
          match reg.inner_get key ti.attributes ti.qualifiers with
          | some superRules => acc ++ superRules
          | none => acc) [])) = some rules := hget2
    by_cases hemp : (keys.foldl (fun acc key =>
        match reg.inner_get key ti.attributes ti.qualifiers with
        | some superRules => acc ++ superRules
        | none => acc) []).isEmpty = true
    · rw [if_pos hemp] at hget3
      exact absurd hget3 (by simp)
    · rw [if_neg hemp] at hget3
      injection hget3 with h3
      subst h3
      rw [mem_foldl_union]
      constructor
      · rintro (h | ⟨k2, hk2, rs, hrs, hr⟩)
        · exact absurd h (by simp)
        · exact ⟨keys, rfl, k2, hk2, rs, hrs, hr⟩
      · rintro ⟨keys2, hk2, k3, hk3, rs, hrs, hr⟩
        injection hk2 with h4
        subst h4
        exact .inr ⟨k3, hk3, rs, hrs, hr⟩

/-- Claim C8 witness: the characterization applied to the C8 fixture
request for Sub, locating the Base-registered rule through Sub's stored
superclass chain. -/
theorem claim_C8_witness :
    tSub.solve_parameter.specificity = .AllowSuperclass
      ∧ regC8.get tSub = some [rSub, rBase]
      ∧ (rBase ∈ [rSub, rBase] ↔ ∃ keys,
          regC8.types.get_superclasses tSub.type_hash = some keys
            ∧ ∃ key ∈ keys, ∃ rs,
              regC8.inner_get key tSub.attributes tSub.qualifiers = some rs ∧ rBase ∈ rs) :=
  ⟨rfl, rfl, claim_C8.1 regC8 tSub [rSub, rBase] rBase rfl rfl⟩


/-- The priority stored at an index of the heap vector (0 out of range). -/
def prioAt (l : List Rule) (i : Nat) : Int := ((l[i]?).map Rule.priority).getD 0

/-- The first element of the heap vector bounds every element's priority. -/
def HeadMaxP (l : List Rule) : Prop := ∀ i, i < l.length → prioAt l i ≤ prioAt l 0

theorem swapAt_length (l : List Rule) (i j : Nat) : (swapAt l i j).length = l.length := by
  unfold swapAt
  cases h1 : l[i]? with
  | none => rfl
  | some a =>
    cases h2 : l[j]? with
    | none => rfl
    | some b => simp [List.length_set]

theorem swapAt_getElem? (l : List Rule) (i j : Nat) (hi : i < l.length) (hj : j < l.length)
    (k : Nat) :
    (swapAt l i j)[k]? = if k = j then l[i]? else if k = i then l[j]? else l[k]? := by
  obtain ⟨a, ha⟩ : ∃ a, l[i]? = some a := ⟨l[i], List.getElem?_eq_getElem hi⟩
  obtain ⟨b, hb⟩ : ∃ b, l[j]? = some b := ⟨l[j], List.getElem?_eq_getElem hj⟩
  unfold swapAt
  rw [ha, hb]
  show ((l.set i b).set j a)[k]? = if k = j then some a else if k = i then some b else l[k]?
  by_cases hkj : k = j
  · rw [if_pos hkj, hkj]
    simp [List.getElem?_set, List.length_set, hj]
  · rw [if_neg hkj]
    by_cases hki : k = i
    · have hij : i ≠ j := by rw [← hki]; exact hkj
      rw [if_pos hki, hki]
      simp [List.getElem?_set, List.length_set, hi, hij, Ne.symm hij]
    · rw [if_neg hki]
      simp [List.getElem?_set, hkj, hki, Ne.symm hkj, Ne.symm hki]

theorem prioAt_swapAt (l : List Rule) (i j k : Nat) (hi : i < l.length) (hj : j < l.length) :
    prioAt (swapAt l i j) k =
      if k = j then prioAt l i else if k = i then prioAt l j else prioAt l k := by
  unfold prioAt
  rw [swapAt_getElem? l i j hi hj k]
  split_ifs <;> rfl

theorem siftUpAux_succ_eq (fuel p : Nat) (l : List Rule) (x par : Rule)
    (hx : l[p + 1]? = some x) (hpar : l[p / 2]? = some par) :
    siftUpAux (fuel + 1) l (p + 1) =
      if par.priority < x.priority then siftUpAux fuel (swapAt l (p + 1) (p / 2)) (p / 2)
      else l := by
  show (match l[p + 1]?, l[p / 2]? with
    | some x, some par =>
      if par.priority < x.priority then siftUpAux fuel (swapAt l (p + 1) (p / 2)) (p / 2)
      else l
    | _, _ => l) = _
  rw [hx, hpar]

theorem siftUpAux_length : ∀ (fuel : Nat) (l : List Rule) (pos : Nat),
    (siftUpAux fuel l pos).length = l.length
  | fuel, _, 0 => by cases fuel <;> rfl
  | 0, _, _ + 1 => rfl
  | fuel + 1, l, p + 1 => by
    cases hx : l[p + 1]? with
    | none =>
      show (match l[p + 1]?, l[p / 2]? with
        | some x, some par =>
          if par.priority < x.priority then siftUpAux fuel (swapAt l (p + 1) (p / 2)) (p / 2)
          else l
        | _, _ => l).length = l.length
      rw [hx]
    | some x =>
      cases hpar : l[p / 2]? with
      | none =>
        show (match l[p + 1]?, l[p / 2]? with
          | some x, some par =>
            if par.priority < x.priority then siftUpAux fuel (swapAt l (p + 1) (p / 2)) (p / 2)
            else l
          | _, _ => l).length = l.length
        rw [hx, hpar]
      | some par =>
        rw [siftUpAux_succ_eq fuel p l x par hx hpar]
        by_cases hlt : par.priority < x.priority
        · rw [if_pos hlt, siftUpAux_length fuel _ (p / 2), swapAt_length]
        · rw [if_neg hlt]


theorem siftUpAux_headmax : ∀ (fuel : Nat), ∀ (pos : Nat) (l : List Rule),
    pos ≤ fuel → pos < l.length →
    (∀ i, i < l.length → i ≠ pos → prioAt l i ≤ prioAt l 0) →
    ∀ i, i < (siftUpAux fuel l pos).length →
      prioAt (siftUpAux fuel l pos) i ≤ prioAt (siftUpAux fuel l pos) 0 := by
  intro fuel
  induction fuel with
  | zero =>
    intro pos l hpf hpl hpre i hi
    have hp0 : pos = 0 := Nat.le_zero.mp hpf
    subst hp0
    have hi2 : i < l.length := hi
    by_cases h0 : i = 0
    · subst h0; exact le_refl _
    · exact hpre i hi2 h0
  | succ fuel ih =>
    intro pos l hpf hpl hpre i hi
    cases pos with
    | zero =>
      have hi2 : i < l.length := hi
      by_cases h0 : i = 0
      · subst h0; exact le_refl _
      · exact hpre i hi2 h0
    | succ p =>
      have hp2 : p / 2 < l.length := by
        have := Nat.div_le_self p 2
        omega
      obtain ⟨x, hx⟩ : ∃ x, l[p + 1]? = some x := ⟨_, List.getElem?_eq_getElem hpl⟩
      obtain ⟨par, hpar⟩ : ∃ par, l[p / 2]? = some par := ⟨_, List.getElem?_eq_getElem hp2⟩
      rw [siftUpAux_succ_eq fuel p l x par hx hpar] at hi ⊢
      have hxv : prioAt l (p + 1) = x.priority := by unfold prioAt; rw [hx]; rfl
      have hparv : prioAt l (p / 2) = par.priority := by unfold prioAt; rw [hpar]; rfl
      by_cases hlt : par.priority < x.priority
      · rw [if_pos hlt] at hi ⊢
        refine ih (p / 2) (swapAt l (p + 1) (p / 2)) (by omega)
          (by rw [swapAt_length]; exact hp2) ?_ i hi
        intro i2 hi2 hne2
        rw [swapAt_length] at hi2
        rw [prioAt_swapAt l (p + 1) (p / 2) i2 hpl hp2,
          prioAt_swapAt l (p + 1) (p / 2) 0 hpl hp2]
        rw [if_neg hne2]
        by_cases hz : p / 2 = 0
        · rw [if_pos hz.symm]
          by_cases hip : i2 = p + 1
          · rw [if_pos hip, hparv, hxv]
            exact le_of_lt hlt
          · rw [if_neg hip]
            calc prioAt l i2 ≤ prioAt l 0 := hpre i2 hi2 hip
              _ = prioAt l (p / 2) := by rw [hz]
              _ = par.priority := hparv
              _ ≤ x.priority := le_of_lt hlt
              _ = prioAt l (p + 1) := hxv.symm
        · rw [if_neg (by omega : ¬(0 : Nat) = p / 2), if_neg (by omega : ¬(0 : Nat) = p + 1)]
          by_cases hip : i2 = p + 1
          · rw [if_pos hip, hparv]
            have h3 := hpre (p / 2) hp2 (by omega)
            rw [hparv] at h3
            exact h3
          · rw [if_neg hip]
            exact hpre i2 hi2 hip
      · rw [if_neg hlt] at hi ⊢
        have hi2 : i < l.length := hi
        by_cases h0 : i = 0
        · subst h0; exact le_refl _
        · by_cases hip : i = p + 1
          · subst hip
            rw [hxv]
            have hxle : x.priority ≤ par.priority := le_of_not_lt hlt
            by_cases hz : p / 2 = 0
            · rw [hz] at hparv
              calc x.priority ≤ par.priority := hxle
                _ = prioAt l 0 := hparv.symm
            · calc x.priority ≤ par.priority := hxle
                _ = prioAt l (p / 2) := hparv.symm
                _ ≤ prioAt l 0 := hpre (p / 2) hp2 (by omega)
          · exact hpre i hi2 hip


theorem heapPush_headmax (l : List Rule) (r : Rule) (h : HeadMaxP l) :
    HeadMaxP (heapPush l r) := by
  intro i hi
  unfold heapPush siftUp at hi ⊢
  refine siftUpAux_headmax l.length l.length (l ++ [r]) (le_refl _) (by simp) ?_ i hi
  intro i2 hi2 hne2
  have hi2l : i2 < l.length := by
    rw [List.length_append] at hi2
    simp at hi2
    omega
  have hne : l ≠ [] := by
    intro hc
    subst hc
    simp at hi2l
  have h0 : prioAt (l ++ [r]) 0 = prioAt l 0 := by
    unfold prioAt
    rw [List.getElem?_append,
      if_pos (by cases l with | nil => exact absurd rfl hne | cons a t => simp)]
  have hii : prioAt (l ++ [r]) i2 = prioAt l i2 := by
    unfold prioAt
    rw [List.getElem?_append, if_pos hi2l]
  rw [h0, hii]
  exact h i2 hi2l

theorem foldl_heapPush_headmax (rs : List Rule) :
    ∀ l, HeadMaxP l → HeadMaxP (rs.foldl heapPush l) := by
  induction rs with
  | nil => intro l h; exact h
  | cons r rest ih => intro l h; exact ih _ (heapPush_headmax l r h)

theorem empty_headmax : HeadMaxP ([] : List Rule) := by
  intro i hi
  simp at hi

/-!
Claim C2.
-/

/-- Claim C2, counterexample: rules of priorities 1, 5, 3 registered in that
order under one identity are delivered by lookup in the binary heap's array
order [5, 1, 3], which is not ordered by priority highest first (1 precedes
3). -/
theorem claim_C2_counterexample :
    ((regC2.findHeap 100).map (·.map (·.priority))) = some [5, 1, 3]
      ∧ descSorted [5, 1, 3] = false
      ∧ ((regC2.get tC2).map (·.map (·.priority))) = some [5, 1, 3] := by
  refine ⟨by decide, by decide, by decide⟩

/-- Claim C2, amended: the heap delivers the rules in its internal array
order, whose FIRST element always has maximal priority among the rules
pushed; hence a Single request over matching rules returns the
highest-priority rule's Solution, as the priority-1/5/3 fixture shows. -/
theorem claim_C2 :
    (∀ (rs : List Rule) (r0 : Rule) (rest : List Rule),
      rs.foldl heapPush [] = r0 :: rest →
      ∀ r ∈ r0 :: rest, r.priority ≤ r0.priority)
    ∧ ((regC2.get tC2).map (·.map (·.priority))) = some [5, 1, 3]
    ∧ ((solveTop regC2 1 [] tC2).2.map (·.map (·.rule.priority))) = some [5] := by
  refine ⟨?_, by decide, by decide⟩
  intro rs r0 rest hfold r hr
  have hmax := foldl_heapPush_headmax rs [] empty_headmax
  rw [hfold] at hmax
  obtain ⟨i, hi, hget⟩ := List.getElem_of_mem hr
  have h1 := hmax i hi
  have h2 : prioAt (r0 :: rest) i = r.priority := by
    unfold prioAt
    rw [List.getElem?_eq_getElem hi, hget]
    rfl
  have h3 : prioAt (r0 :: rest) 0 = r0.priority := by
    unfold prioAt
    simp
  rw [h2, h3] at h1
  exact h1

/-- Claim C2 witness: the head-maximality applied to the priority-1/5/3
fixture's heap. -/
theorem claim_C2_witness :
    ([rP1, rP5, rP3].foldl heapPush [] = rP5 :: [rP1, rP3])
      ∧ (∀ r ∈ rP5 :: [rP1, rP3], r.priority ≤ rP5.priority) :=
  ⟨rfl, claim_C2.1 [rP1, rP5, rP3] rP5 [rP1, rP3] rfl⟩

end Composify
